import Mathlib

/-!
# Verification of the prime-number finder (`file.py`)

Shallow embedding of the Sieve-of-Eratosthenes prime finder:
`create_sieve`, `extract_primes_from_sieve`, `find_primes_in_range`,
`print_primes` and `save_primes_to_file`, together with proofs of the
specified properties.

Python `int` is modelled as `Int`; the boolean sieve list as `List Bool`;
the `for`-loops as folds over an explicit model of Python `range`;
raised exceptions as `Except` values; printed/written text as
`List String` / `String`.
-/

namespace PrimeFinder

/-- Model of Python `range(start, stop, step)` for natural `start`, `stop` and
positive `step`: the values `start, start + step, ...` strictly below `stop`.
Implemented with explicit fuel (`stop - start` steps always suffice when
`1 ≤ step`) so that the definition is structurally recursive and evaluates
inside the kernel. -/
def rangeStepGo (stop step : Nat) : Nat → Nat → List Nat
  | 0, _ => []
  | fuel + 1, a => if a < stop then a :: rangeStepGo stop step fuel (a + step) else []

/-- Python `range(start, stop, step)` (positive step). -/
def rangeStep (start stop step : Nat) : List Nat :=
  rangeStepGo stop step (stop - start) start

/-- Fuel-driven ascent used to model `int(upper_bound ** 0.5)`:
starting from `acc`, increment while the square of the successor still fits. -/
def isqrtGo (n : Nat) : Nat → Nat → Nat
  | 0, acc => acc
  | fuel + 1, acc => if (acc + 1) * (acc + 1) ≤ n then isqrtGo n fuel (acc + 1) else acc

/-- Model of Python `int(upper_bound ** 0.5)`: the integer square root.
(The float computation in the source is exact for the magnitudes it is used
at; we model it as the exact integer square root.) -/
def int_sqrt (n : Nat) : Nat := isqrtGo n n 0

/-- The inner loop of `create_sieve` (`file.py` lines 51-52): mark every
`j` in `range(i*i, upper_bound + 1, i)` as non-prime. -/
def markMultiples (s : List Bool) (i n : Nat) : List Bool :=
  (rangeStep (i * i) (n + 1) i).foldl (fun t j => t.set j false) s

/-- The body of `create_sieve` for `upper_bound ≥ 2` (`file.py` lines 39-54),
on the natural number `n = upper_bound`: allocate `n + 1` `True` entries,
clear indices `0` and `1`, then for `i` in `range(2, int(n**0.5) + 1)`
mark the multiples of each `i` that is still marked prime. -/
def sieveCore (n : Nat) : List Bool :=
  (rangeStep 2 (int_sqrt n + 1) 1).foldl
    (fun t i => if t.getD i false then markMultiples t i n else t)
    (((List.replicate (n + 1) true).set 0 false).set 1 false)

/-- `create_sieve` (`file.py` lines 21-54): empty table for bounds below 2,
otherwise the sieve of Eratosthenes up to `upper_bound`. -/
def create_sieve (upper_bound : Int) : List Bool :=
  if upper_bound < 2 then [] else sieveCore upper_bound.toNat

/-- Model of Python `range(a, b)` over (possibly negative) integers. -/
def intRange (a b : Int) : List Int :=
  (List.range (b - a).toNat).map (fun t : Nat => a + (t : Int))

/-- `extract_primes_from_sieve` (`file.py` lines 56-75): the comprehension
`[i for i in range(max(2, lower_bound), min(len(sieve), upper_bound + 1)) if sieve[i]]`.
Every `i` produced by the range is nonnegative and below `len(sieve)`, so the
Python indexing `sieve[i]` is modelled by `sieve.getD i.toNat false`. -/
def extract_primes_from_sieve (sieve : List Bool) (lower_bound upper_bound : Int) :
    List Int :=
  (intRange (max 2 lower_bound) (min (sieve.length : Int) (upper_bound + 1))).filter
    (fun i => sieve.getD i.toNat false)

/-- A Python value passed as a bound: either a well-formed integer or some
other value (represented by a string, as in the spec's `find-primes("a", 10)`
example). -/
inductive PyValue where
  | intV (n : Int)
  | strV (s : String)
deriving DecidableEq

/-- `isinstance(v, int)`. -/
def PyValue.isInt : PyValue → Bool
  | .intV _ => true
  | .strV _ => false

/-- The two error classes raised by `find_primes_in_range`:
`invalidInput` models the `TypeError` for non-integer bounds (the spec's
InvalidInput) and `invalidRange` the `ValueError` for `lower > upper`
(the spec's InvalidRange). -/
inductive PrimesError where
  | invalidInput
  | invalidRange
deriving DecidableEq

/-- `find_primes_in_range` (`file.py` lines 77-106): validate that both
bounds are integers, then that `lower_bound ≤ upper_bound`; return `[]`
when `upper_bound < 2`; otherwise build the sieve and extract the range. -/
def find_primes_in_range (lower_bound upper_bound : PyValue) :
    Except PrimesError (List Int) :=
  match lower_bound, upper_bound with
  | .intV lo, .intV hi =>
    if lo > hi then .error .invalidRange
    else if hi < 2 then .ok []
    else .ok (extract_primes_from_sieve (create_sieve hi) lo hi)
  | _, _ => .error .invalidInput

instance {α β : Type} [DecidableEq α] [DecidableEq β] : DecidableEq (Except α β) :=
  fun a b =>
    match a, b with
    | .ok x, .ok y =>
      if h : x = y then .isTrue (h ▸ rfl) else .isFalse (fun hh => h (Except.ok.inj hh))
    | .error x, .error y =>
      if h : x = y then .isTrue (h ▸ rfl) else .isFalse (fun hh => h (Except.error.inj hh))
    | .ok _, .error _ => .isFalse (fun hh => Except.noConfusion hh)
    | .error _, .ok _ => .isFalse (fun hh => Except.noConfusion hh)

/-- Python `f"{p:6d}"`: the decimal rendering of `p`, right-aligned with
spaces to a field of width 6 (longer renderings are not truncated). -/
def fmt6 (p : Int) : String :=
  let s := toString p
  String.mk (List.replicate (6 - s.length) ' ') ++ s

/-- One printed row: Python `" ".join(f"{p:6d}" for p in row)`. -/
def rowText (row : List Int) : String :=
  String.intercalate " " (row.map fmt6)

/-- Python slice `l[a:b]` for `0 ≤ a ≤ b`. -/
def pySlice (l : List Int) (a b : Nat) : List Int :=
  (l.drop a).take (b - a)

/-- Python `str` of a list of ints, e.g. `[2, 3, 5]`. -/
def pyListRepr (l : List Int) : String :=
  "[" ++ String.intercalate ", " (l.map toString) ++ "]"

/-- `print_primes` (`file.py` lines 108-129), modelled as the list of lines
printed: the empty-input message line is printed (and nothing else) whenever
`primes` is empty, before the format selector is even examined; otherwise
the selector chooses between the one-line list format, the column format
(header plus rows of 10), and the fallback `print` of the raw list. -/
def print_primes (primes : List Int) (format_type : String) : List String :=
  if primes.isEmpty then
    ["No prime numbers found in the given range."]
  else if format_type = "list" then
    ["Found " ++ toString primes.length ++ " prime numbers: " ++
      String.intercalate ", " (primes.map toString)]
  else if format_type = "columns" then
    ("Found " ++ toString primes.length ++ " prime numbers:") ::
      (rangeStep 0 primes.length 10).map (fun i => rowText (pySlice primes i (i + 10)))
  else
    ["Found " ++ toString primes.length ++ " prime numbers: " ++ pyListRepr primes]

/-- `save_primes_to_file` (`file.py` lines 131-151), modelled as the text
written to the file: the header (with its hard-coded literal `1 and 250`
independent of any actual bounds — the function receives none), a blank
line, then the loop `for i in range(0, len(primes), 10)` appending one row
of 10 values per line. -/
def save_primes_to_file (primes : List Int) : String :=
  (rangeStep 0 primes.length 10).foldl
    (fun content i => content ++ (rowText (pySlice primes i (i + 10)) ++ "\n"))
    ("Found " ++ toString primes.length ++ " prime numbers between 1 and 250: " ++
      "\n" ++ "\n")

/-- Spec-side description of the saved report (§6 Persister): header line
with the count and the fixed `1 and 250` literal, a blank line, then the
values in rows of 10 (defined here by direct chunking of the list, not by
the source's index loop), each right-aligned to width 6, one row per line. -/
def rowsGo : Nat → List Int → List (List Int)
  | 0, _ => []
  | _, [] => []
  | fuel + 1, l => l.take 10 :: rowsGo fuel (l.drop 10)

/-- The list split into consecutive chunks of 10. -/
def rowsOf10 (l : List Int) : List (List Int) := rowsGo l.length l

/-- The saved report as the spec describes it (§6 Persister). -/
def savedTextSpec (primes : List Int) : String :=
  "Found " ++ toString primes.length ++ " prime numbers between 1 and 250: " ++
    "\n" ++ "\n" ++
    String.join ((rowsOf10 primes).map (fun row => rowText row ++ "\n"))

/-! ## Basic lemmas about the `range` model -/

theorem rangeStepGo_of_ge (stop step a : Nat) (fuel : Nat) (h : stop ≤ a) :
    rangeStepGo stop step fuel a = [] := by
  cases fuel with
  | zero => rfl
  | succ f => simp [rangeStepGo, Nat.not_lt.mpr h]

theorem rangeStepGo_congr (stop step : Nat) (hstep : 1 ≤ step) :
    ∀ fuel₁ fuel₂ a, stop - a ≤ fuel₁ → stop - a ≤ fuel₂ →
      rangeStepGo stop step fuel₁ a = rangeStepGo stop step fuel₂ a := by
  intro fuel₁
  induction fuel₁ with
  | zero =>
    intro fuel₂ a h₁ _
    rw [rangeStepGo_of_ge stop step a 0 (by omega), rangeStepGo_of_ge stop step a fuel₂ (by omega)]
  | succ f ih =>
    intro fuel₂ a h₁ h₂
    by_cases hlt : a < stop
    · obtain ⟨f₂, rfl⟩ : ∃ f₂, fuel₂ = f₂ + 1 := ⟨fuel₂ - 1, by omega⟩
      simp only [rangeStepGo, if_pos hlt]
      rw [ih f₂ (a + step) (by omega) (by omega)]
    · rw [rangeStepGo_of_ge stop step a _ (by omega),
        rangeStepGo_of_ge stop step a _ (by omega)]

theorem rangeStep_nil (start stop step : Nat) (h : stop ≤ start) :
    rangeStep start stop step = [] :=
  rangeStepGo_of_ge stop step start _ h

theorem rangeStep_cons (start stop step : Nat) (hstep : 1 ≤ step) (h : start < stop) :
    rangeStep start stop step = start :: rangeStep (start + step) stop step := by
  unfold rangeStep
  obtain ⟨f, hf⟩ : ∃ f, stop - start = f + 1 := ⟨stop - start - 1, by omega⟩
  rw [hf]
  simp only [rangeStepGo, if_pos h]
  rw [rangeStepGo_congr stop step hstep f (stop - (start + step)) (a := start + step)
    (by omega) (by omega)]

theorem rangeStep_one_eq_range' :
    ∀ (n start stop : Nat), stop - start = n → rangeStep start stop 1 = List.range' start n := by
  intro n
  induction n with
  | zero =>
    intro start stop h
    rw [rangeStep_nil start stop 1 (by omega)]
    rfl
  | succ m ih =>
    intro start stop h
    rw [rangeStep_cons start stop 1 (by omega) (by omega), List.range'_succ,
      ih (start + 1) stop (by omega)]

theorem mem_rangeStep (step : Nat) (hstep : 1 ≤ step) :
    ∀ (n start stop j : Nat), stop - start ≤ n →
      (j ∈ rangeStep start stop step ↔ start ≤ j ∧ j < stop ∧ step ∣ (j - start)) := by
  intro n
  induction n with
  | zero =>
    intro start stop j h
    rw [rangeStep_nil start stop step (by omega)]
    simp only [List.not_mem_nil, false_iff]
    omega
  | succ m ih =>
    intro start stop j h
    by_cases hlt : start < stop
    · rw [rangeStep_cons start stop step hstep hlt]
      simp only [List.mem_cons]
      rw [ih (start + step) stop j (by omega)]
      constructor
      · rintro (rfl | ⟨h₁, h₂, hd⟩)
        · exact ⟨Nat.le_refl j, hlt, by simp⟩
        · refine ⟨by omega, h₂, ?_⟩
          have he : j - start = (j - (start + step)) + step := by omega
          rw [he]
          exact dvd_add hd (Nat.dvd_refl step)
      · rintro ⟨h₁, h₂, hd⟩
        by_cases hj : j = start
        · exact Or.inl hj
        · have hpos : 0 < j - start := by omega
          have hge : step ≤ j - start := Nat.le_of_dvd hpos hd
          refine Or.inr ⟨by omega, h₂, ?_⟩
          have he : j - (start + step) = (j - start) - step := by omega
          rw [he]
          exact Nat.dvd_sub' hd (Nat.dvd_refl step)
    · rw [rangeStep_nil start stop step (by omega)]
      simp only [List.not_mem_nil, false_iff]
      omega

/-! ## The integer square root model -/

theorem isqrtGo_spec (n : Nat) :
    ∀ fuel acc, acc * acc ≤ n → n < (acc + 1 + fuel) * (acc + 1 + fuel) →
      isqrtGo n fuel acc * isqrtGo n fuel acc ≤ n ∧
        n < (isqrtGo n fuel acc + 1) * (isqrtGo n fuel acc + 1) := by
  intro fuel
  induction fuel with
  | zero =>
    intro acc h₁ h₂
    exact ⟨h₁, by simpa using h₂⟩
  | succ f ih =>
    intro acc h₁ h₂
    by_cases hstep : (acc + 1) * (acc + 1) ≤ n
    · simp only [isqrtGo, if_pos hstep]
      have he : acc + 1 + (f + 1) = acc + 1 + 1 + f := by omega
      exact ih (acc + 1) hstep (he ▸ h₂)
    · simp only [isqrtGo, if_neg hstep]
      exact ⟨h₁, Nat.not_le.mp hstep⟩

theorem int_sqrt_spec (n : Nat) :
    int_sqrt n * int_sqrt n ≤ n ∧ n < (int_sqrt n + 1) * (int_sqrt n + 1) := by
  have h := isqrtGo_spec n n 0 (by omega) (by nlinarith)
  exact h

theorem le_int_sqrt (n d : Nat) : d ≤ int_sqrt n ↔ d * d ≤ n := by
  obtain ⟨h₁, h₂⟩ := int_sqrt_spec n
  constructor
  · intro h
    calc d * d ≤ int_sqrt n * int_sqrt n := Nat.mul_le_mul h h
    _ ≤ n := h₁
  · intro h
    by_contra hc
    have : (int_sqrt n + 1) * (int_sqrt n + 1) ≤ d * d :=
      Nat.mul_le_mul (by omega) (by omega)
    omega

theorem int_sqrt_eq_sqrt (n : Nat) : int_sqrt n = Nat.sqrt n := by
  obtain ⟨h₁, h₂⟩ := int_sqrt_spec n
  have ha : int_sqrt n ≤ Nat.sqrt n := Nat.le_sqrt.mpr h₁
  have hb : Nat.sqrt n ≤ int_sqrt n := by
    by_contra hc
    have := Nat.sqrt_le n
    have : (int_sqrt n + 1) * (int_sqrt n + 1) ≤ Nat.sqrt n * Nat.sqrt n :=
      Nat.mul_le_mul (by omega) (by omega)
    omega
  omega

/-! ## Setting entries of the sieve -/

theorem getD_set_self_false (s : List Bool) (j : Nat) :
    (s.set j false).getD j false = false := by
  by_cases h : j < s.length
  · simp [List.getD_eq_getElem?_getD, List.getElem?_set_self, h]
  · simp [List.getD_eq_getElem?_getD, List.getElem?_eq_none, List.length_set, Nat.le_of_not_lt h]

theorem getD_set_ne (s : List Bool) (x j : Nat) (b : Bool) (h : x ≠ j) :
    (s.set x b).getD j false = s.getD j false := by
  simp [List.getD_eq_getElem?_getD, List.getElem?_set_ne h]

theorem foldl_set_false_length (xs : List Nat) :
    ∀ s : List Bool, (xs.foldl (fun t j => t.set j false) s).length = s.length := by
  induction xs with
  | nil => intro s; rfl
  | cons x xs ih => intro s; rw [List.foldl_cons, ih, List.length_set]

theorem foldl_set_false_getD (xs : List Nat) :
    ∀ (s : List Bool) (j : Nat),
      (xs.foldl (fun t j => t.set j false) s).getD j false =
        if j ∈ xs then false else s.getD j false := by
  induction xs with
  | nil => intro s j; simp
  | cons x xs ih =>
    intro s j
    rw [List.foldl_cons, ih]
    by_cases hmem : j ∈ xs
    · simp [hmem]
    · by_cases hx : j = x
      · subst hx
        rw [if_neg hmem, getD_set_self_false, if_pos (List.mem_cons_self j xs)]
      · rw [getD_set_ne s x j false (fun he => hx he.symm)]
        simp [hx, hmem]

theorem length_markMultiples (s : List Bool) (i n : Nat) :
    (markMultiples s i n).length = s.length :=
  foldl_set_false_length _ s

theorem getD_markMultiples (s : List Bool) (i n j : Nat) (hi : 1 ≤ i) :
    (markMultiples s i n).getD j false =
      if i * i ≤ j ∧ j ≤ n ∧ i ∣ j then false else s.getD j false := by
  unfold markMultiples
  rw [foldl_set_false_getD]
  have hiff := mem_rangeStep i hi (n + 1 - i * i) (i * i) (n + 1) j (Nat.le_refl _)
  by_cases hc : i * i ≤ j ∧ j ≤ n ∧ i ∣ j
  · have hm : j ∈ rangeStep (i * i) (n + 1) i :=
      hiff.mpr ⟨hc.1, by omega, Nat.dvd_sub' hc.2.2 (dvd_mul_left i i)⟩
    rw [if_pos hm, if_pos hc]
  · have hm : j ∉ rangeStep (i * i) (n + 1) i := by
      intro h
      obtain ⟨h₁, h₂, hd⟩ := hiff.mp h
      refine hc ⟨h₁, by omega, ?_⟩
      have he : j = (j - i * i) + i * i := by omega
      rw [he]
      exact dvd_add hd (dvd_mul_left i i)
    rw [if_neg hm, if_neg hc]

/-! ## The sieve invariant -/

/-- `j` has a divisor `d` with `2 ≤ d ≤ k` whose square does not exceed `j`. -/
def smallDiv (k j : Nat) : Prop := ∃ d, 2 ≤ d ∧ d ≤ k ∧ d ∣ j ∧ d * d ≤ j

/-- State of the sieve after the outer loop has processed every candidate
up to and including `k`: the length is unchanged and an entry `j ≤ n` is
still `true` exactly when `j ≥ 2` and no candidate processed so far
witnesses a nontrivial divisor of `j`. -/
def SieveInv (n k : Nat) (s : List Bool) : Prop :=
  s.length = n + 1 ∧
    ∀ j, j ≤ n → (s.getD j false = true ↔ (2 ≤ j ∧ ¬ smallDiv k j))

theorem smallDiv_one (j : Nat) : ¬ smallDiv 1 j := by
  rintro ⟨d, h₂, h₁, -, -⟩
  omega

theorem sieveInv_init (n : Nat) (hn : 2 ≤ n) :
    SieveInv n 1 (((List.replicate (n + 1) true).set 0 false).set 1 false) := by
  constructor
  · simp [List.length_set, List.length_replicate]
  · intro j hj
    by_cases h0 : j = 0
    · subst h0
      rw [getD_set_ne _ 1 0 false (by omega), getD_set_self_false]
      simp
    · by_cases h1 : j = 1
      · subst h1
        rw [getD_set_self_false]
        simp
      · rw [getD_set_ne _ 1 j false (fun he => h1 he.symm),
          getD_set_ne _ 0 j false (fun he => h0 he.symm)]
        have : (List.replicate (n + 1) true).getD j false = true := by
          rw [List.getD_eq_getElem?_getD, List.getElem?_replicate, if_pos (by omega)]
          rfl
        rw [this]
        simp only [true_iff]
        exact ⟨by omega, smallDiv_one j⟩

theorem sieveInv_step (n k : Nat) (s : List Bool) (hk : 1 ≤ k) (hkn : k + 1 ≤ n)
    (h : SieveInv n k s) :
    SieveInv n (k + 1)
      (if s.getD (k + 1) false then markMultiples s (k + 1) n else s) := by
  obtain ⟨hlen, hspec⟩ := h
  by_cases hc : s.getD (k + 1) false = true
  · rw [if_pos hc]
    refine ⟨by rw [length_markMultiples]; exact hlen, ?_⟩
    intro j hj
    rw [getD_markMultiples s (k + 1) n j (by omega)]
    by_cases hm : (k + 1) * (k + 1) ≤ j ∧ j ≤ n ∧ (k + 1) ∣ j
    · rw [if_pos hm]
      have hsd : smallDiv (k + 1) j := ⟨k + 1, by omega, by omega, hm.2.2, hm.1⟩
      simp [hsd]
    · rw [if_neg hm, hspec j hj]
      constructor
      · rintro ⟨h2, hnd⟩
        refine ⟨h2, ?_⟩
        rintro ⟨d, hd2, hdk, hdj, hdd⟩
        by_cases hdi : d = k + 1
        · subst hdi
          exact hm ⟨hdd, hj, hdj⟩
        · exact hnd ⟨d, hd2, by omega, hdj, hdd⟩
      · rintro ⟨h2, hnd⟩
        exact ⟨h2, fun ⟨d, hd2, hdk, hdj, hdd⟩ => hnd ⟨d, hd2, by omega, hdj, hdd⟩⟩
  · rw [if_neg hc]
    refine ⟨hlen, ?_⟩
    intro j hj
    rw [hspec j hj]
    have hsi : smallDiv k (k + 1) := by
      by_contra hno
      exact hc ((hspec (k + 1) (by omega)).mpr ⟨by omega, hno⟩)
    obtain ⟨e, he2, hek, hei, hee⟩ := hsi
    constructor
    · rintro ⟨h2, hnd⟩
      refine ⟨h2, ?_⟩
      rintro ⟨d, hd2, hdk, hdj, hdd⟩
      by_cases hdi : d = k + 1
      · subst hdi
        refine hnd ⟨e, he2, hek, dvd_trans hei hdj, ?_⟩
        have hij : k + 1 ≤ j := Nat.le_of_dvd (by omega) hdj
        omega
      · exact hnd ⟨d, hd2, by omega, hdj, hdd⟩
    · rintro ⟨h2, hnd⟩
      exact ⟨h2, fun ⟨d, hd2, hdk, hdj, hdd⟩ => hnd ⟨d, hd2, by omega, hdj, hdd⟩⟩

theorem sieveInv_loop (n : Nat) :
    ∀ (len k : Nat) (s : List Bool), 1 ≤ k → k + len ≤ n → SieveInv n k s →
      SieveInv n (k + len)
        ((List.range' (k + 1) len).foldl
          (fun t i => if t.getD i false then markMultiples t i n else t) s) := by
  intro len
  induction len with
  | zero =>
    intro k s hk hkn h
    simpa using h
  | succ m ih =>
    intro k s hk hkn h
    rw [List.range'_succ, List.foldl_cons]
    have hstep := sieveInv_step n k s hk (by omega) h
    have hrec := ih (k + 1) _ (by omega) (by omega) hstep
    have he : k + 1 + m = k + (m + 1) := by omega
    rw [he] at hrec
    exact hrec

theorem sieveCore_inv (n : Nat) (hn : 2 ≤ n) : SieveInv n (int_sqrt n) (sieveCore n) := by
  unfold sieveCore
  have hsq1 : 1 ≤ int_sqrt n := (le_int_sqrt n 1).mpr (by omega)
  have hsqn : int_sqrt n ≤ n := by
    have h₁ := (int_sqrt_spec n).1
    nlinarith
  rw [rangeStep_one_eq_range' (int_sqrt n - 1) 2 (int_sqrt n + 1) (by omega)]
  have h0 := sieveInv_init n hn
  have hloop := sieveInv_loop n (int_sqrt n - 1) 1 _ (Nat.le_refl 1) (by omega) h0
  rw [show 1 + (int_sqrt n - 1) = int_sqrt n from by omega] at hloop
  exact hloop

theorem length_sieveCore (n : Nat) (hn : 2 ≤ n) : (sieveCore n).length = n + 1 :=
  (sieveCore_inv n hn).1

/-- The fundamental characterisation of a sieve entry: for `2 ≤ n` and
`j ≤ n`, entry `j` is `true` iff `j ≥ 2` and `j` has no divisor `d ≥ 2`
with `d * d ≤ j`. -/
theorem getD_sieveCore (n : Nat) (hn : 2 ≤ n) (j : Nat) (hj : j ≤ n) :
    ((sieveCore n).getD j false = true) ↔
      (2 ≤ j ∧ ∀ d, 2 ≤ d → d * d ≤ j → ¬ d ∣ j) := by
  rw [(sieveCore_inv n hn).2 j hj]
  constructor
  · rintro ⟨h2, hnd⟩
    refine ⟨h2, fun d hd2 hdd hdj => hnd ⟨d, hd2, ?_, hdj, hdd⟩⟩
    exact (le_int_sqrt n d).mpr (le_trans hdd hj)
  · rintro ⟨h2, hnd⟩
    exact ⟨h2, fun ⟨d, hd2, hdk, hdj, hdd⟩ => hnd d hd2 hdd hdj⟩

/-! ## Range extraction -/

theorem mem_intRange (a b j : Int) : j ∈ intRange a b ↔ a ≤ j ∧ j < b := by
  unfold intRange
  simp only [List.mem_map, List.mem_range]
  constructor
  · rintro ⟨t, ht, rfl⟩
    constructor
    · show a ≤ a + (t : Int)
      omega
    · show a + (t : Int) < b
      omega
  · rintro ⟨h₁, h₂⟩
    exact ⟨(j - a).toNat, by omega, by omega⟩

theorem intRange_nil (a b : Int) (h : b ≤ a) : intRange a b = [] := by
  unfold intRange
  rw [show (b - a).toNat = 0 from by omega]
  rfl

theorem pairwise_intRange (a b : Int) : (intRange a b).Pairwise (· < ·) := by
  unfold intRange
  rw [List.pairwise_map]
  refine (List.pairwise_lt_range _).imp ?_
  intro x y hxy
  show a + (x : Int) < a + (y : Int)
  omega

theorem extract_pairwise (sieve : List Bool) (lo hi : Int) :
    (extract_primes_from_sieve sieve lo hi).Pairwise (· < ·) :=
  (pairwise_intRange _ _).sublist (List.filter_sublist _)

theorem mem_extract (sieve : List Bool) (lo hi j : Int) :
    j ∈ extract_primes_from_sieve sieve lo hi ↔
      max 2 lo ≤ j ∧ j < min (sieve.length : Int) (hi + 1) ∧
        sieve.getD j.toNat false = true := by
  unfold extract_primes_from_sieve
  rw [List.mem_filter, mem_intRange]
  tauto

theorem extract_nil (sieve : List Bool) (lo hi : Int)
    (h : min ((sieve.length : Int) - 1) hi < max 2 lo) :
    extract_primes_from_sieve sieve lo hi = [] := by
  unfold extract_primes_from_sieve
  rw [intRange_nil _ _ (by omega)]
  rfl

/-! ## The orchestration entry point -/

theorem find_int_int (lo hi : Int) :
    find_primes_in_range (.intV lo) (.intV hi) =
      if lo > hi then .error .invalidRange
      else if hi < 2 then .ok []
      else .ok (extract_primes_from_sieve (create_sieve hi) lo hi) := rfl

theorem find_nonint_left (s : String) (b : PyValue) :
    find_primes_in_range (.strV s) b = .error .invalidInput := by
  cases b <;> rfl

theorem find_nonint_right (a : PyValue) (s : String) :
    find_primes_in_range a (.strV s) = .error .invalidInput := by
  cases a <;> rfl

/-! ## String lemmas for the report format -/

theorem foldl_append_str (l : List String) :
    ∀ a b : String,
      l.foldl (fun r s => r ++ s) (a ++ b) = a ++ l.foldl (fun r s => r ++ s) b := by
  induction l with
  | nil => intro a b; simp
  | cons c t ih =>
    intro a b
    rw [List.foldl_cons, List.foldl_cons, String.append_assoc]
    exact ih a (b ++ c)

theorem join_cons (a : String) (l : List String) :
    String.join (a :: l) = a ++ String.join l := by
  show List.foldl (fun r s => r ++ s) ("" ++ a) l = a ++ List.foldl (fun r s => r ++ s) "" l
  rw [show ("" : String) ++ a = a ++ "" from by simp]
  exact foldl_append_str l a ""

theorem rowsGo_congr :
    ∀ (f₁ f₂ : Nat) (l : List Int), l.length ≤ f₁ → l.length ≤ f₂ →
      rowsGo f₁ l = rowsGo f₂ l := by
  intro f₁
  induction f₁ with
  | zero =>
    intro f₂ l h₁ h₂
    have : l = [] := List.eq_nil_of_length_eq_zero (by omega)
    subst this
    cases f₂ <;> rfl
  | succ f ih =>
    intro f₂ l h₁ h₂
    cases l with
    | nil => cases f₂ <;> rfl
    | cons x xs =>
      have hx : (x :: xs).length = xs.length + 1 := rfl
      obtain ⟨g, rfl⟩ : ∃ g, f₂ = g + 1 := ⟨f₂ - 1, by rw [hx] at h₂; omega⟩
      simp only [rowsGo]
      rw [ih g ((x :: xs).drop 10)
        (by simp only [List.length_drop, hx] at h₁ ⊢ ; omega)
        (by simp only [List.length_drop, hx] at h₂ ⊢ ; omega)]

theorem rowsOf10_cons (l : List Int) (h : l ≠ []) :
    rowsOf10 l = l.take 10 :: rowsOf10 (l.drop 10) := by
  cases l with
  | nil => exact absurd rfl h
  | cons x xs =>
    show rowsGo (xs.length + 1) (x :: xs) = _
    simp only [rowsGo]
    rw [rowsGo_congr xs.length ((x :: xs).drop 10).length ((x :: xs).drop 10)
      (by simp only [List.length_drop, List.length_cons]; omega)
      (Nat.le_refl _)]
    rfl

theorem pySlice_ten (l : List Int) (i : Nat) :
    pySlice l i (i + 10) = (l.drop i).take 10 := by
  unfold pySlice
  rw [show i + 10 - i = 10 from by omega]

theorem saveLoop_eq (l : List Int) :
    ∀ (n i : Nat) (acc : String), l.length - i ≤ n →
      (rangeStep i l.length 10).foldl
        (fun content k => content ++ (rowText (pySlice l k (k + 10)) ++ "\n")) acc =
      acc ++ String.join ((rowsOf10 (l.drop i)).map (fun row => rowText row ++ "\n")) := by
  intro n
  induction n with
  | zero =>
    intro i acc h
    rw [rangeStep_nil i l.length 10 (by omega),
      List.drop_eq_nil_of_le (by omega)]
    simp [rowsOf10, rowsGo, String.join]
  | succ m ih =>
    intro i acc h
    by_cases hi : i < l.length
    · rw [rangeStep_cons i l.length 10 (by omega) hi, List.foldl_cons,
        ih (i + 10) _ (by omega)]
      have hne : l.drop i ≠ [] := by
        intro hnil
        have := List.drop_eq_nil_iff.mp hnil
        omega
      rw [rowsOf10_cons (l.drop i) hne, List.map_cons, join_cons,
        pySlice_ten, List.drop_drop, String.append_assoc]
    · rw [rangeStep_nil i l.length 10 (by omega),
        List.drop_eq_nil_of_le (by omega)]
      simp [rowsOf10, rowsGo, String.join]

theorem sieveCore_getD_false_of_lt_two (n j : Nat) (hn : 2 ≤ n) (hj : j ≤ n)
    (h2 : j < 2) : (sieveCore n).getD j false = false := by
  cases hb : (sieveCore n).getD j false
  · rfl
  · obtain ⟨hj2, -⟩ := ((sieveCore_inv n hn).2 j hj).mp hb
    omega

/-! ## The claims -/

/-- C1: for every integer `N ≥ 2` and every `i ∈ [2, N]`, entry `i` of the
table returned by `create_sieve N` is `true` iff `i` has no integer divisor
`d` with `2 ≤ d ≤ √i` — equivalently, iff `i` is prime. -/
theorem claim_C1_sieve_entry_iff_prime (N : Int) (hN : 2 ≤ N) (i : Nat)
    (h2 : 2 ≤ i) (hiN : (i : Int) ≤ N) :
    (((create_sieve N).getD i false = true) ↔
      (∀ d : Nat, 2 ≤ d → d ≤ Nat.sqrt i → ¬ d ∣ i)) ∧
    (((create_sieve N).getD i false = true) ↔ Nat.Prime i) := by
  have hNt : 2 ≤ N.toNat := by omega
  have hiNt : i ≤ N.toNat := by omega
  have hcs : create_sieve N = sieveCore N.toNat := by
    unfold create_sieve
    rw [if_neg (by omega)]
  rw [hcs, getD_sieveCore N.toNat hNt i hiNt]
  have hdiv : (2 ≤ i ∧ ∀ d, 2 ≤ d → d * d ≤ i → ¬ d ∣ i) ↔
      (∀ d : Nat, 2 ≤ d → d ≤ Nat.sqrt i → ¬ d ∣ i) := by
    constructor
    · rintro ⟨-, h⟩ d hd2 hds
      exact h d hd2 (Nat.le_sqrt.mp hds)
    · intro h
      exact ⟨h2, fun d hd2 hdd => h d hd2 (Nat.le_sqrt.mpr hdd)⟩
  refine ⟨hdiv, ?_⟩
  rw [hdiv]
  constructor
  · intro h
    exact Nat.prime_def_le_sqrt.mpr ⟨h2, h⟩
  · intro h
    exact (Nat.prime_def_le_sqrt.mp h).2

/-- Witness for C1 at `N = 30`, `i = 29`. -/
theorem claim_C1_sieve_entry_iff_prime_witness :
    ((create_sieve 30).getD 29 false = true) ↔ Nat.Prime 29 :=
  (claim_C1_sieve_entry_iff_prime 30 (by decide) 29 (by decide) (by decide)).2

/-- C2: for every integer `N ≥ 0`, `create_sieve N` returns an empty table
when `N < 2` and otherwise a table of length `N + 1` whose entries 0 and 1
are `false`; the function is total over the integers, so no error is ever
raised. -/
theorem claim_C2_sieve_shape (N : Int) (h0 : 0 ≤ N) :
    (N < 2 → create_sieve N = []) ∧
    (2 ≤ N → ((create_sieve N).length : Int) = N + 1 ∧
      (create_sieve N).getD 0 false = false ∧
      (create_sieve N).getD 1 false = false) := by
  constructor
  · intro h
    unfold create_sieve
    rw [if_pos h]
  · intro h
    have hNt : 2 ≤ N.toNat := by omega
    have hcs : create_sieve N = sieveCore N.toNat := by
      unfold create_sieve
      rw [if_neg (by omega)]
    refine ⟨?_, ?_, ?_⟩
    · rw [hcs, length_sieveCore N.toNat hNt]
      omega
    · rw [hcs]
      exact sieveCore_getD_false_of_lt_two N.toNat 0 hNt (by omega) (by omega)
    · rw [hcs]
      exact sieveCore_getD_false_of_lt_two N.toNat 1 hNt (by omega) (by omega)

/-- Witness for C2 at `N = 10`. -/
theorem claim_C2_sieve_shape_witness :
    ((10 : Int) < 2 → create_sieve 10 = []) ∧
    (2 ≤ (10 : Int) → ((create_sieve 10).length : Int) = 10 + 1 ∧
      (create_sieve 10).getD 0 false = false ∧
      (create_sieve 10).getD 1 false = false) :=
  claim_C2_sieve_shape 10 (by decide)

/-- C3: for every boolean table and all integers `lo ≤ hi`, the extracted
list is strictly increasing and every element `j` satisfies
`max 2 lo ≤ j ≤ hi` and is marked `true` in the table. -/
theorem claim_C3_extract_sorted_in_range (sieve : List Bool) (lo hi : Int)
    (hle : lo ≤ hi) :
    (extract_primes_from_sieve sieve lo hi).Pairwise (· < ·) ∧
    (∀ j ∈ extract_primes_from_sieve sieve lo hi,
      max 2 lo ≤ j ∧ j ≤ hi ∧ sieve.getD j.toNat false = true) := by
  refine ⟨extract_pairwise sieve lo hi, ?_⟩
  intro j hj
  rw [mem_extract] at hj
  obtain ⟨h₁, h₂, h₃⟩ := hj
  exact ⟨h₁, by omega, h₃⟩

/-- Witness for C3 at table `[false, false, true, true]`, `lo = -1`,
`hi = 7`. -/
theorem claim_C3_extract_sorted_in_range_witness :
    (extract_primes_from_sieve [false, false, true, true] (-1) 7).Pairwise (· < ·) ∧
    (∀ j ∈ extract_primes_from_sieve [false, false, true, true] (-1) 7,
      max 2 (-1) ≤ j ∧ j ≤ 7 ∧
        [false, false, true, true].getD j.toNat false = true) :=
  claim_C3_extract_sorted_in_range [false, false, true, true] (-1) 7 (by decide)

/-- C4: `extract_primes_from_sieve` is total for every table and every pair
of integer bounds: each index the comprehension ranges over (hence each
index it reads) lies inside the table — the bounds are clamped to
`max 2 lo` and `min (length - 1) hi` — and when the effective lower bound
exceeds the effective upper bound the result is the empty list, not an
error. -/
theorem claim_C4_extract_total_and_clamped (sieve : List Bool) (lo hi : Int) :
    (∀ j ∈ intRange (max 2 lo) (min ((sieve.length : Int)) (hi + 1)),
      0 ≤ j ∧ j.toNat < sieve.length) ∧
    (min ((sieve.length : Int) - 1) hi < max 2 lo →
      extract_primes_from_sieve sieve lo hi = []) := by
  constructor
  · intro j hj
    rw [mem_intRange] at hj
    omega
  · exact extract_nil sieve lo hi

/-- Witness for C4 at table `[false, false, true]`, bounds `(-3, 5)`. -/
theorem claim_C4_extract_total_and_clamped_witness :
    (∀ j ∈ intRange (max 2 (-3)) (min ((([false, false, true] : List Bool).length : Int)) (5 + 1)),
      0 ≤ j ∧ j.toNat < ([false, false, true] : List Bool).length) ∧
    (min ((([false, false, true] : List Bool).length : Int) - 1) 5 < max 2 (-3) →
      extract_primes_from_sieve [false, false, true] (-3) 5 = []) :=
  claim_C4_extract_total_and_clamped [false, false, true] (-3) 5

/-- C5: `find_primes_in_range` fails with the InvalidInput error
(`TypeError`) exactly when a bound is not a well-formed integer, fails with
the InvalidRange error (`ValueError`) exactly when both bounds are integers
with `lo > hi`, and returns a result (never an error) otherwise; in
particular `find_primes_in_range 10 5` raises InvalidRange and
`find_primes_in_range "a" 10` raises InvalidInput. -/
theorem claim_C5_error_classification (a b : PyValue) :
    ((find_primes_in_range a b = .error .invalidInput) ↔
      (a.isInt = false ∨ b.isInt = false)) ∧
    ((find_primes_in_range a b = .error .invalidRange) ↔
      (∃ lo hi : Int, a = .intV lo ∧ b = .intV hi ∧ hi < lo)) ∧
    (∀ lo hi : Int, a = .intV lo → b = .intV hi → lo ≤ hi →
      ∃ l, find_primes_in_range a b = .ok l) ∧
    (find_primes_in_range (.intV 10) (.intV 5) = .error .invalidRange) ∧
    (find_primes_in_range (.strV "a") (.intV 10) = .error .invalidInput) := by
  refine ⟨?_, ?_, ?_, by decide, rfl⟩
  · cases a with
    | strV s =>
      rw [find_nonint_left]
      simp [PyValue.isInt]
    | intV lo =>
      cases b with
      | strV s =>
        rw [find_nonint_right]
        simp [PyValue.isInt]
      | intV hi =>
        rw [find_int_int]
        simp only [PyValue.isInt]
        constructor
        · intro h
          split_ifs at h <;> simp at h
        · rintro (h | h) <;> simp at h
  · cases a with
    | strV s =>
      rw [find_nonint_left]
      constructor
      · intro h
        simp at h
      · rintro ⟨lo, hi, ha, -, -⟩
        simp at ha
    | intV lo =>
      cases b with
      | strV s =>
        rw [find_nonint_right]
        constructor
        · intro h
          simp at h
        · rintro ⟨lo', hi', -, hb, -⟩
          simp at hb
      | intV hi =>
        rw [find_int_int]
        by_cases h1 : lo > hi
        · rw [if_pos h1]
          constructor
          · intro _
            exact ⟨lo, hi, rfl, rfl, h1⟩
          · intro _
            rfl
        · rw [if_neg h1]
          have hok : ∃ l, (if hi < 2 then (Except.ok [] : Except PrimesError (List Int))
              else .ok (extract_primes_from_sieve (create_sieve hi) lo hi)) = .ok l := by
            by_cases h2 : hi < 2
            · exact ⟨[], by rw [if_pos h2]⟩
            · exact ⟨_, by rw [if_neg h2]⟩
          obtain ⟨l, hl⟩ := hok
          rw [hl]
          constructor
          · intro h
            simp at h
          · rintro ⟨lo', hi', ha, hb, hlt⟩
            cases ha
            cases hb
            omega
  · intro lo hi ha hb hle
    subst ha
    subst hb
    rw [find_int_int, if_neg (by omega)]
    by_cases h2 : hi < 2
    · exact ⟨[], by rw [if_pos h2]⟩
    · exact ⟨_, by rw [if_neg h2]⟩

/-- Witness for C5 at the integer pair `(3, 7)`. -/
theorem claim_C5_error_classification_witness :
    ((find_primes_in_range (.intV 3) (.intV 7) = .error .invalidInput) ↔
      ((PyValue.intV 3).isInt = false ∨ (PyValue.intV 7).isInt = false)) ∧
    ((find_primes_in_range (.intV 3) (.intV 7) = .error .invalidRange) ↔
      (∃ lo hi : Int, PyValue.intV 3 = .intV lo ∧ PyValue.intV 7 = .intV hi ∧ hi < lo)) ∧
    (∀ lo hi : Int, PyValue.intV 3 = .intV lo → PyValue.intV 7 = .intV hi → lo ≤ hi →
      ∃ l, find_primes_in_range (.intV 3) (.intV 7) = .ok l) ∧
    (find_primes_in_range (.intV 10) (.intV 5) = .error .invalidRange) ∧
    (find_primes_in_range (.strV "a") (.intV 10) = .error .invalidInput) :=
  claim_C5_error_classification (.intV 3) (.intV 7)

/-- C6: for all integers `lo ≤ hi`, if `hi < 2` the full pipeline
`extract_primes_from_sieve (create_sieve hi) lo hi` also yields the empty
list, so the short-circuit is unobservable and for every valid pair
`find_primes_in_range` equals the full pipeline. -/
theorem claim_C6_short_circuit_equiv (lo hi : Int) (hle : lo ≤ hi) :
    (hi < 2 → extract_primes_from_sieve (create_sieve hi) lo hi = []) ∧
    (find_primes_in_range (.intV lo) (.intV hi) =
      .ok (extract_primes_from_sieve (create_sieve hi) lo hi)) := by
  have hempty : hi < 2 → extract_primes_from_sieve (create_sieve hi) lo hi = [] := by
    intro h2
    have hcs : create_sieve hi = [] := by
      unfold create_sieve
      rw [if_pos h2]
    rw [hcs]
    refine extract_nil _ _ _ ?_
    simp only [List.length_nil]
    omega
  refine ⟨hempty, ?_⟩
  rw [find_int_int, if_neg (by omega)]
  by_cases h2 : hi < 2
  · rw [if_pos h2, hempty h2]
  · rw [if_neg h2]

/-- Witness for C6 at `lo = -5`, `hi = 1`. -/
theorem claim_C6_short_circuit_equiv_witness :
    ((1 : Int) < 2 → extract_primes_from_sieve (create_sieve 1) (-5) 1 = []) ∧
    (find_primes_in_range (.intV (-5)) (.intV 1) =
      .ok (extract_primes_from_sieve (create_sieve 1) (-5) 1)) :=
  claim_C6_short_circuit_equiv (-5) 1 (by decide)

set_option maxRecDepth 10000 in
/-- C7 as stated is false: `find_primes_in_range 1 250` does not return 54
primes — it returns 53 of them (π(250) = 53; the spec's count is off by
one). -/
theorem claim_C7_count_counterexample :
    ¬ ∃ l, find_primes_in_range (.intV 1) (.intV 250) = .ok l ∧ l.length = 54 := by
  rintro ⟨l, hl, hlen⟩
  have h53 : Except.map List.length (find_primes_in_range (.intV 1) (.intV 250)) =
      .ok 53 := by decide
  rw [hl] at h53
  simp only [Except.map] at h53
  have : l.length = 53 := Except.ok.inj h53
  omega

set_option maxRecDepth 10000 in
/-- C7 (amended): `find_primes_in_range 1 1` yields the empty sequence,
`find_primes_in_range 2 2` yields `[2]`, and `find_primes_in_range 1 250`
yields exactly 53 primes whose first element is 2 and whose last element
is 241. -/
theorem claim_C7_boundary_values :
    find_primes_in_range (.intV 1) (.intV 1) = .ok [] ∧
    find_primes_in_range (.intV 2) (.intV 2) = .ok [2] ∧
    Except.map List.length (find_primes_in_range (.intV 1) (.intV 250)) = .ok 53 ∧
    Except.map List.head? (find_primes_in_range (.intV 1) (.intV 250)) = .ok (some 2) ∧
    Except.map List.getLast? (find_primes_in_range (.intV 1) (.intV 250)) =
      .ok (some 241) :=
  ⟨by decide, by decide, by decide, by decide, by decide⟩

/-- C8: `find_primes_in_range` is a pure function of its two arguments —
the model threads no state whatsoever, so two invocations with identical
arguments are identical. -/
theorem claim_C8_deterministic (a b : PyValue) :
    find_primes_in_range a b = find_primes_in_range a b := rfl

/-- Witness for C8 at `(1, 9)`. -/
theorem claim_C8_deterministic_witness :
    find_primes_in_range (.intV 1) (.intV 9) = find_primes_in_range (.intV 1) (.intV 9) :=
  claim_C8_deterministic (.intV 1) (.intV 9)

/-- C9: for every list of primes, the text produced by
`save_primes_to_file` is exactly the spec-side format: the header line
`Found {count} prime numbers between 1 and 250: ` with `count` the list
length and the literal `1 and 250` fixed (the function receives no bounds
at all), then a blank line, then the values in rows of 10, each
right-aligned to a 6-character field, one row per line. -/
theorem claim_C9_saved_report_format (primes : List Int) :
    save_primes_to_file primes = savedTextSpec primes := by
  unfold save_primes_to_file savedTextSpec
  rw [saveLoop_eq primes primes.length 0 _ (by omega), List.drop_zero]

/-- Witness for C9 at an 11-element list (two rows). -/
theorem claim_C9_saved_report_format_witness :
    save_primes_to_file [2, 3, 5, 7, 11, 13, 17, 19, 23, 29, 31] =
      savedTextSpec [2, 3, 5, 7, 11, 13, 17, 19, 23, 29, 31] :=
  claim_C9_saved_report_format [2, 3, 5, 7, 11, 13, 17, 19, 23, 29, 31]

/-- C10: on an empty prime list, `print_primes` prints the single fixed
line `No prime numbers found in the given range.` and nothing else, for
every format selector — the empty check precedes the selector dispatch. -/
theorem claim_C10_empty_prints_message (format_type : String) :
    print_primes [] format_type = ["No prime numbers found in the given range."] := rfl

/-- Witness for C10 at the selector `columns`. -/
theorem claim_C10_empty_prints_message_witness :
    print_primes [] "columns" = ["No prime numbers found in the given range."] :=
  claim_C10_empty_prints_message "columns"

end PrimeFinder
